import Mathlib

/-!
Shallow embedding of the poiskV4 keyword-search engine
(`src/file_processing.py`, `src/search_engine.py`, `src/guiV4.py`).

Strings are modelled as lists of Unicode code points (`Nat`), text
lower-casing as the ASCII code-point map used on the relevant inputs,
Python dicts as association lists with replace-or-append update, and
the fallible I/O primitives (file reads, archive extraction, size
probes) as explicit `Except`-valued oracles threaded through the
definitions, so that the `try/except` structure of the source is
represented by explicit matches on those oracle results.
-/

namespace Poisk

/-- A string: a list of Unicode code points. -/
abbrev Str := List Nat

/-- Convenience conversion from Lean string literals to the model's strings. -/
def str (s : String) : Str := s.data.map Char.toNat

/-- `str.lower()` on one character (ASCII range, which covers the
extension and pattern alphabets the claims quantify over). -/
def lowChar (c : Nat) : Nat := if 65 ≤ c ∧ c ≤ 90 then c + 32 else c

/-- `text.lower()`. -/
def lowerStr (s : Str) : Str := s.map lowChar

/-- Whitespace characters removed by Python's `str.strip()`. -/
def isSpaceCh (c : Nat) : Bool :=
  c == 9 || c == 10 || c == 11 || c == 12 || c == 13 || c == 32

/-- `line.strip()`. -/
def strip (s : Str) : Str :=
  ((s.dropWhile isSpaceCh).reverse.dropWhile isSpaceCh).reverse

/-! ## Keyword loading (`load_keywords`, file_processing.py lines 13-27) -/

/-- Error taxonomy named by the spec for `load`.  The source raises a
single `ValueError`; we keep both constructors so that the spec's claim
about a distinguishable empty-input error can be stated. -/
inductive LoadError
  | decodeError
  | emptyInput
  deriving DecidableEq

/-- The encodings tried by `load_keywords`, in order. -/
inductive Enc
  | utf8
  | cp1251
  | iso8859
  | utf8sig
  deriving DecidableEq

/-- `encodings = ['utf-8', 'cp1251', 'iso-8859-1', 'utf-8-sig']`. -/
def encodingOrder : List Enc := [.utf8, .cp1251, .iso8859, .utf8sig]

/-- `[line.strip() for line in f if line.strip()]`. -/
def stripKeywords (lines : List Str) : List Str :=
  (lines.map strip).filter (fun l => decide (l ≠ []))

/-- `KEYWORDS_LOWER = {kw.lower() for kw in keywords}`. -/
def keywordsLower (lines : List Str) : Finset Str :=
  ((stripKeywords lines).map lowerStr).toFinset

/-- The encoding-fallback loop of `load_keywords`.  A source is modelled
by its decode oracle: for each encoding, either the decoded lines or
`none` for a `UnicodeDecodeError`. -/
def loadKeywordsGo (decode : Enc → Option (List Str)) :
    List Enc → Except LoadError (List Str)
  | [] => .error .decodeError
  | e :: es =>
    match decode e with
    | none => loadKeywordsGo decode es
    | some lines =>
      let kws := stripKeywords lines
      if kws = [] then loadKeywordsGo decode es else .ok kws

/-- `load_keywords`: try each encoding in order; any decoding that yields
no non-blank line falls through to the next encoding; exhausting the
list raises the (single) `ValueError`. -/
def loadKeywords (decode : Enc → Option (List Str)) : Except LoadError (List Str) :=
  loadKeywordsGo decode encodingOrder

/-! ## Keyword matching (`search_in_text`, file_processing.py lines 30-36) -/

/-- `search_in_text`: empty text short-circuits to the empty set;
otherwise the text is lower-cased once and every stored (already
lower-cased) keyword that occurs as a substring is returned. -/
def searchInText (kws : Finset Str) (t : Str) : Finset Str :=
  if t = [] then ∅ else kws.filter (fun k => k <:+: lowerStr t)

/-! ### Helper lemmas -/

theorem lowChar_idem (c : Nat) : lowChar (lowChar c) = lowChar c := by
  by_cases h : 65 ≤ c ∧ c ≤ 90
  · have h1 : lowChar c = c + 32 := by unfold lowChar; rw [if_pos h]
    have h2 : ¬(65 ≤ c + 32 ∧ c + 32 ≤ 90) := by omega
    rw [h1]
    unfold lowChar
    rw [if_neg h2]
  · have h1 : lowChar c = c := by unfold lowChar; rw [if_neg h]
    rw [h1]
    exact h1

theorem lowerStr_idem (s : Str) : lowerStr (lowerStr s) = lowerStr s := by
  unfold lowerStr
  rw [List.map_map]
  exact List.map_congr_left fun c _ => lowChar_idem c

theorem mem_keywordsLower {lines : List Str} {k : Str}
    (hk : k ∈ keywordsLower lines) : k ≠ [] ∧ lowerStr k = k := by
  unfold keywordsLower at hk
  rw [List.mem_toFinset, List.mem_map] at hk
  obtain ⟨w, hw, rfl⟩ := hk
  unfold stripKeywords at hw
  rw [List.mem_filter] at hw
  refine ⟨?_, lowerStr_idem w⟩
  have hne : w ≠ [] := by simpa using hw.2
  simp only [lowerStr, ne_eq, List.map_eq_nil_iff]
  exact hne

/-- C1: `search_in_text` over a loaded keyword set returns a subset of the
set, membership is exactly lower-cased substring containment, and the
empty text yields the empty set. -/
theorem c1_search_in_text_spec (lines : List Str) (t k : Str)
    (hk : k ∈ keywordsLower lines) :
    searchInText (keywordsLower lines) t ⊆ keywordsLower lines ∧
    (k ∈ searchInText (keywordsLower lines) t ↔ lowerStr k <:+: lowerStr t) ∧
    searchInText (keywordsLower lines) [] = ∅ := by
  obtain ⟨hne, hfix⟩ := mem_keywordsLower hk
  refine ⟨?_, ?_, ?_⟩
  · unfold searchInText
    split
    · exact Finset.empty_subset _
    · exact Finset.filter_subset _ _
  · unfold searchInText
    split
    · rename_i ht
      subst ht
      simp only [Finset.not_mem_empty, false_iff]
      rw [hfix]
      intro hinf
      rcases List.eq_nil_of_infix_nil (by simpa [lowerStr] using hinf) with h
      exact hne (by simpa [lowerStr] using h)
    · rw [Finset.mem_filter, hfix]
      simpa using fun _ => hk
  · simp [searchInText]

/-- Witness for C1 at a concrete keyword file and text. -/
theorem c1_search_in_text_spec_witness :
    str "invoice" ∈ keywordsLower [str "Invoice", str " urgent "] ∧
    (searchInText (keywordsLower [str "Invoice", str " urgent "])
        (str "This Invoice needs review") ⊆
      keywordsLower [str "Invoice", str " urgent "] ∧
    (str "invoice" ∈ searchInText (keywordsLower [str "Invoice", str " urgent "])
        (str "This Invoice needs review") ↔
      lowerStr (str "invoice") <:+: lowerStr (str "This Invoice needs review")) ∧
    searchInText (keywordsLower [str "Invoice", str " urgent "]) [] = ∅) :=
  ⟨by decide, c1_search_in_text_spec [str "Invoice", str " urgent "]
    (str "This Invoice needs review") (str "invoice") (by decide)⟩

/-! ## Glob patterns (`fnmatch.fnmatch` as used by the pattern lists) -/

/-- One token of an `fnmatch` pattern: a literal character or `*`.
The configured extension patterns use only these two constructs. -/
inductive GlobTok
  | star
  | lit (c : Nat)
  deriving DecidableEq

/-- An extension pattern, e.g. `*.txt`. -/
abbrev Pattern := List GlobTok

/-- A pattern made of literal characters. -/
def litPat (s : String) : Pattern := (str s).map .lit

/-- A `*suffix` pattern such as `*.txt`. -/
def starPat (s : String) : Pattern := .star :: litPat s

/-- `fnmatch.fnmatch` (POSIX `normcase` is the identity): full-string
match where `*` matches any sequence of characters, including the path
separator. -/
def globMatch : Pattern → Str → Bool
  | [], s => s.isEmpty
  | .lit _ :: _, [] => false
  | .lit c :: p, d :: s => c == d && globMatch p s
  | .star :: p, s => s.tails.any (fun u => globMatch p u)

/-- The path separator `/`. -/
def sepCh : Nat := 47

/-- `os.path.basename`. -/
def basename (p : Str) : Str :=
  (p.reverse.takeWhile (fun c => decide (c ≠ sepCh))).reverse

/-- The extension part after the last dot of `l`, empty if `l` has no dot. -/
def extAfterDot (l : Str) : Str :=
  if (46 : Nat) ∈ l then 46 :: (l.reverse.takeWhile (fun c => decide (c ≠ 46))).reverse
  else []

/-- `os.path.splitext(p)[1]`: the extension of the base name, where the
leading dots of the base name never start an extension. -/
def splitextExt (p : Str) : Str :=
  let b := basename p
  extAfterDot (b.drop ((b.takeWhile (fun c => c == 46)).length))

/-- `os.path.splitext(file_path)[1].lower()`. -/
def extOf (p : Str) : Str := lowerStr (splitextExt p)

/-! ### Glob and path lemmas -/

theorem globMatch_star_all (s : Str) : globMatch [.star] s = true := by
  simp only [globMatch, List.any_eq_true]
  exact ⟨[], (List.mem_tails _ _).2 (List.nil_suffix : [] <:+ s), rfl⟩

theorem globMatch_lits (s t : Str) :
    globMatch (s.map .lit) t = decide (s = t) := by
  induction s generalizing t with
  | nil =>
    cases t <;> simp [globMatch]
  | cons a s ih =>
    cases t with
    | nil => simp [globMatch]
    | cons b t =>
      simp only [List.map_cons, globMatch, ih]
      by_cases hab : a = b
      · subst hab
        by_cases hst : s = t <;> simp [hst]
      · simp [hab]

theorem globMatch_star_lits (s t : Str) :
    globMatch (.star :: s.map .lit) t = decide (s <:+ t) := by
  simp only [globMatch, globMatch_lits]
  by_cases h : s <:+ t
  · rw [decide_eq_true h, List.any_eq_true]
    exact ⟨s, (List.mem_tails _ _).2 h, by simp⟩
  · rw [decide_eq_false h, List.any_eq_false]
    intro u hu
    rcases (List.mem_tails _ _).1 hu with hsuf
    by_cases he : s = u
    · exact absurd (he ▸ hsuf) h
    · simp [he]

theorem prefix_takeWhile_of_all {p : Nat → Bool} {s l : Str}
    (hp : s <+: l) (hall : ∀ c ∈ s, p c = true) : s <+: l.takeWhile p := by
  induction s generalizing l with
  | nil => exact List.nil_prefix
  | cons a s ih =>
    obtain ⟨u, rfl⟩ := hp
    rw [List.cons_append, List.takeWhile_cons, hall a (by simp)]
    simp only [if_true]
    exact List.cons_prefix_cons.2
      ⟨rfl, ih (List.prefix_append s u) (fun c hc => hall c (by simp [hc]))⟩

theorem basename_suffix_self (p : Str) : basename p <:+ p := by
  have h1 : p.reverse.takeWhile (fun c => decide (c ≠ sepCh)) <+: p.reverse :=
    List.takeWhile_prefix _
  have h2 := List.reverse_suffix.2 h1
  simpa [basename] using h2

theorem suffix_basename_iff {s pth : Str} (hs : sepCh ∉ s) :
    s <:+ basename pth ↔ s <:+ pth := by
  constructor
  · intro h
    exact h.trans (basename_suffix_self pth)
  · intro h
    have h1 : s.reverse <+: pth.reverse := by
      rw [ List.reverse_prefix]
      exact h
    have h2 : s.reverse <+: pth.reverse.takeWhile (fun c => decide (c ≠ sepCh)) :=
      prefix_takeWhile_of_all h1
        (fun c hc => by
          simp only [decide_eq_true_eq]
          intro hcs
          exact hs (by simpa [hcs] using List.mem_reverse.1 hc))
    have h3 := List.reverse_suffix.2 h2
    simpa [basename] using h3

/-- If all tokens of `p` are literals, they spell exactly this string. -/
def patLits : Pattern → Option Str
  | [] => some []
  | .lit c :: p => (patLits p).map (c :: ·)
  | .star :: _ => none

/-- A pattern of the form `*suffix` with a literal suffix. -/
def isStarSuffixPat : Pattern → Bool
  | .star :: p => (patLits p).isSome
  | _ => false

/-- A `*suffix` pattern whose suffix contains no path separator. -/
def isStarSuffixNoSep : Pattern → Bool
  | .star :: p =>
    match patLits p with
    | some s => decide (sepCh ∉ s)
    | none => false
  | _ => false

theorem patLits_eq {p : Pattern} {s : Str} (h : patLits p = some s) :
    p = s.map .lit := by
  induction p generalizing s with
  | nil =>
    simp only [patLits, Option.some_inj] at h
    simp [← h]
  | cons tok p ih =>
    cases tok with
    | star => simp [patLits] at h
    | lit c =>
      have hdef : patLits (.lit c :: p) = (patLits p).map (c :: ·) := rfl
      rw [hdef] at h
      cases hp : patLits p with
      | none =>
        rw [hp] at h
        exact absurd h (by simp)
      | some t =>
        rw [hp] at h
        have hct : c :: t = s := by simpa using h
        rw [← hct]
        simp [ih hp]

/-! ## Configuration, diagnostics and per-file oracles -/

/-- The capability flags read from the config dict (`config.get('has_*', False)`). -/
structure Config where
  hasOcr : Bool
  hasPdf : Bool
  hasDocx : Bool
  hasExcel : Bool
  has7z : Bool
  hasRar : Bool
  deriving DecidableEq

/-- Diagnostic levels of the source's `logging` calls. -/
inductive Level
  | info
  | warn
  | error
  deriving DecidableEq

/-- One logged diagnostic, carrying the offending path. -/
structure Diag where
  level : Level
  path : Str
  deriving DecidableEq

/-- Outcomes of the fallible primitives `process_file` relies on for one
file: `os.path.getsize`, the plain-text `open`/`read`, and the results
of the format extractors (which catch internally and so are total). -/
structure FileOracle where
  size : Except Unit Nat
  readText : Except Unit Str
  ocr : Finset Str
  pdf : Finset Str
  docx : Finset Str
  excel : Finset Str
  archive : Finset Str

/-- Extensions dispatched to `search_in_image`. -/
def imageExtList : List Str :=
  [str ".png", str ".jpg", str ".jpeg", str ".bmp", str ".gif", str ".tiff"]

/-! ## Per-file processing (`process_file`, file_processing.py lines 265-336) -/

/-- Python dict from file path to matched keywords. -/
abbrev Dict := List (Str × Finset Str)

def dictLookup : Dict → Str → Option (Finset Str)
  | [], _ => none
  | kv :: d, k => if kv.1 = k then some kv.2 else dictLookup d k

def dictKeys (d : Dict) : List Str := d.map Prod.fst

/-- `dict[k] = v`: replace-or-append, keeping keys unique. -/
def dictInsert (d : Dict) (k : Str) (v : Finset Str) : Dict :=
  d.filter (fun kv => decide (kv.1 ≠ k)) ++ [(k, v)]

/-- `results.update(r)`. -/
def dictUpdateAll (d : Dict) (r : Dict) : Dict :=
  r.foldl (fun acc kv => dictInsert acc kv.1 kv.2) d

/-- `return {file_path: found} if found else {}`. -/
def finishFile (path : Str) (found : Finset Str) (ds : List Diag) :
    Dict × List Diag :=
  if found = ∅ then ([], ds) else ([(path, found)], ds)

/-- The body of `process_file` inside its top-level `try`, computing the
`found` set and the logged diagnostics: a thrown exception is an
`Except.error`. -/
def processFileFound (K : Finset Str) (o : FileOracle) (cfg : Config)
    (exts : List Pattern) (maxMB : ℚ) (path : Str) :
    Except Unit (Finset Str × List Diag) := do
  let n ← o.size
  if maxMB < (n : ℚ) / (1024 * 1024) then
    return (∅, [⟨.warn, path⟩])
  let ext := extOf path
  if (exts.any (fun pt => globMatch pt path)) = false then
    return (∅, [])
  if ext ∈ imageExtList then
    if cfg.hasOcr then return (o.ocr, [])
    else return (∅, [⟨.info, path⟩])
  if ext = str ".pdf" then
    if cfg.hasPdf then return (o.pdf, [])
    else return (∅, [⟨.info, path⟩])
  if ext = str ".docx" then
    if cfg.hasDocx then return (o.docx, [])
    else return (∅, [⟨.info, path⟩])
  if ext = str ".xls" ∨ ext = str ".xlsx" then
    if cfg.hasExcel then return (o.excel, [])
    else return (∅, [⟨.info, path⟩])
  if ext = str ".zip" ∨ ext = str ".7z" ∨ ext = str ".rar" then
    if ext = str ".7z" ∧ cfg.has7z = false then
      return (∅, [⟨.info, path⟩])
    else if ext = str ".rar" ∧ cfg.hasRar = false then
      return (∅, [⟨.info, path⟩])
    else return (o.archive, [])
  let s ← o.readText
  return (searchInText K s, [])

/-- `process_file`: the top-level `except Exception` converts any escaped
failure into an error log plus an empty dict. -/
def processFile (K : Finset Str) (o : FileOracle) (cfg : Config)
    (exts : List Pattern) (maxMB : ℚ) (path : Str) : Dict × List Diag :=
  match processFileFound K o cfg exts maxMB path with
  | .ok fd => finishFile path fd.1 fd.2
  | .error _ => ([], [⟨.error, path⟩])

/-! ## Directory scan (`search_files`, search_engine.py lines 13-78) -/

/-- Enumeration-time admission (lines 21-26): the basename is matched
against the extension patterns. -/
def admitsEnum (exts : List Pattern) (f : Str) : Bool :=
  exts.any (fun pt => globMatch pt (basename f))

/-- `files_to_process` for one root, given the walked file list. -/
def admitted (exts : List Pattern) (files : List Str) : List Str :=
  files.filter (admitsEnum exts)

/-- Aggregated output of one `search_files` call: the results dict and the
stream of progress events `(basename, total_processed)`. -/
structure RunOut where
  results : Dict
  events : List (Str × Nat)

/-- The `as_completed` loop: each admitted file is processed exactly once,
in completion order; a progress event is emitted for every file, and
non-empty per-file dicts are merged into `results`. -/
def runFiles (K : Finset Str) (O : Str → FileOracle) (cfg : Config)
    (exts : List Pattern) (maxMB : ℚ) :
    List Str → Dict → Nat → RunOut
  | [], d, _ => ⟨d, []⟩
  | f :: fs, d, cnt =>
    let r := (processFile K (O f) cfg exts maxMB f).1
    let rest := runFiles K O cfg exts maxMB fs (dictUpdateAll d r) (cnt + 1)
    ⟨rest.results, (basename f, cnt + 1) :: rest.events⟩

/-- `search_files` over one root: `order` is the completion order of the
futures (an arbitrary permutation of the admitted files). -/
def searchFiles (K : Finset Str) (O : Str → FileOracle) (cfg : Config)
    (exts : List Pattern) (maxMB : ℚ) (order : List Str) (startCount : Nat) :
    RunOut :=
  runFiles K O cfg exts maxMB order [] startCount

/-- The files processed with no match in one `search_files` run. -/
def noMatchFiles (K : Finset Str) (O : Str → FileOracle) (cfg : Config)
    (exts : List Pattern) (maxMB : ℚ) (order : List Str) : List Str :=
  order.filter (fun f => (processFile K (O f) cfg exts maxMB f).1.isEmpty)

/-! ### Dict lemmas -/

theorem dictLookup_dictInsert (d : Dict) (k q : Str) (v : Finset Str) :
    dictLookup (dictInsert d k v) q = if q = k then some v else dictLookup d q := by
  induction d with
  | nil =>
    by_cases h : q = k
    · subst h
      simp [dictInsert, dictLookup]
    · simp only [dictInsert, List.filter_nil, List.nil_append, dictLookup]
      rw [if_neg (fun hh => h hh.symm), if_neg h]
  | cons kv d ih =>
    by_cases hkvk : kv.1 = k
    · have hfe : dictInsert (kv :: d) k v = dictInsert d k v := by
        simp [dictInsert, List.filter_cons, hkvk]
      rw [hfe, ih]
      by_cases hq : q = k
      · simp [hq]
      · rw [if_neg hq, if_neg hq]
        simp only [dictLookup]
        rw [if_neg (fun hh => hq (by rw [← hh]; exact hkvk))]
    · have hfe : dictInsert (kv :: d) k v = kv :: dictInsert d k v := by
        simp [dictInsert, List.filter_cons, hkvk]
      rw [hfe]
      by_cases hkvq : kv.1 = q
      · have hqk : ¬ q = k := fun hh => hkvk (by rw [hkvq, hh])
        simp only [dictLookup]
        rw [if_pos hkvq, if_neg hqk, if_pos hkvq]
      · simp only [dictLookup]
        rw [if_neg hkvq, ih]
        by_cases hq : q = k
        · simp [hq]
        · rw [if_neg hq, if_neg hq, if_neg hkvq]

theorem dictKeys_dictInsert_fresh {d : Dict} {k : Str} (v : Finset Str)
    (hf : k ∉ dictKeys d) :
    dictKeys (dictInsert d k v) = dictKeys d ++ [k] := by
  have hfe : d.filter (fun kv => decide (kv.1 ≠ k)) = d := by
    apply List.filter_eq_self.2
    intro kv hkv
    simp only [decide_eq_true_eq]
    intro hh
    exact hf (by simpa [dictKeys, hh] using List.mem_map_of_mem Prod.fst hkv)
  simp only [dictInsert, dictKeys]
  rw [hfe, List.map_append]
  rfl

theorem dictKeys_dictInsert_nodup {d : Dict} (k : Str) (v : Finset Str)
    (hd : (dictKeys d).Nodup) : (dictKeys (dictInsert d k v)).Nodup := by
  have hsub : List.Sublist
      ((d.filter (fun kv => decide (kv.1 ≠ k))).map Prod.fst) (d.map Prod.fst) :=
    (List.filter_sublist d).map Prod.fst
  have h1 : ((d.filter (fun kv => decide (kv.1 ≠ k))).map Prod.fst).Nodup :=
    hsub.nodup hd
  have h2 : k ∉ (d.filter (fun kv => decide (kv.1 ≠ k))).map Prod.fst := by
    intro hmem
    rw [List.mem_map] at hmem
    obtain ⟨kv, hkv, hfst⟩ := hmem
    rw [List.mem_filter] at hkv
    exact absurd hfst (by simpa using hkv.2)
  simp only [dictInsert, dictKeys, List.map_append]
  exact List.Nodup.append h1 (List.nodup_singleton k)
    (fun a ha hb => h2 (by rw [List.mem_singleton.1 hb] at ha; exact ha))

theorem mem_dictInsert {d : Dict} {k : Str} {v : Finset Str} {kv : Str × Finset Str}
    (h : kv ∈ dictInsert d k v) : kv ∈ d ∨ kv = (k, v) := by
  rcases List.mem_append.1 h with h1 | h1
  · exact Or.inl (List.mem_of_mem_filter h1)
  · exact Or.inr (by simpa using h1)

/-! ### Shape of per-file results -/

theorem finishFile_shape (path : Str) (found : Finset Str) (ds : List Diag) :
    finishFile path found ds = ([], ds) ∨
    (found ≠ ∅ ∧ finishFile path found ds = ([(path, found)], ds)) := by
  unfold finishFile
  by_cases h : found = ∅ <;> simp [h]

theorem processFile_shape (K : Finset Str) (o : FileOracle) (cfg : Config)
    (exts : List Pattern) (maxMB : ℚ) (path : Str) :
    (processFile K o cfg exts maxMB path).1 = [] ∨
    ∃ s : Finset Str, s ≠ ∅ ∧
      (processFile K o cfg exts maxMB path).1 = [(path, s)] := by
  unfold processFile
  cases hc : processFileFound K o cfg exts maxMB path with
  | error e => exact Or.inl rfl
  | ok fd =>
    rcases finishFile_shape path fd.1 fd.2 with h | ⟨hne, h⟩
    · exact Or.inl (by show (finishFile path fd.1 fd.2).1 = []; rw [h])
    · exact Or.inr ⟨fd.1, hne,
        by show (finishFile path fd.1 fd.2).1 = [(path, fd.1)]; rw [h]⟩

theorem dictUpdateAll_single (d : Dict) (k : Str) (v : Finset Str) :
    dictUpdateAll d [(k, v)] = dictInsert d k v := rfl

theorem exceptBind_ok {e a b : Type} (x : a) (f : a → Except e b) :
    (Except.ok x >>= f : Except e b) = f x := rfl

theorem dictLookup_updateAll_processFile (K : Finset Str) (o : FileOracle)
    (cfg : Config) (exts : List Pattern) (maxMB : ℚ) (g p : Str) (d : Dict)
    (hp : p ≠ g) :
    dictLookup (dictUpdateAll d (processFile K o cfg exts maxMB g).1) p =
      dictLookup d p := by
  rcases processFile_shape K o cfg exts maxMB g with h | ⟨s, _, h⟩
  · rw [h]
    rfl
  · rw [h, dictUpdateAll_single, dictLookup_dictInsert, if_neg hp]

/-- Results for paths other than `f` do not depend on `f`'s oracle. -/
theorem runFiles_lookup_congr (K : Finset Str) (O O' : Str → FileOracle)
    (cfg : Config) (exts : List Pattern) (maxMB : ℚ) (f : Str)
    (hO : ∀ g, g ≠ f → O g = O' g) :
    ∀ (order : List Str) (d d' : Dict) (cnt : Nat),
      (∀ q, q ≠ f → dictLookup d q = dictLookup d' q) →
      ∀ q, q ≠ f →
        dictLookup (runFiles K O cfg exts maxMB order d cnt).results q =
          dictLookup (runFiles K O' cfg exts maxMB order d' cnt).results q := by
  intro order
  induction order with
  | nil =>
    intro d d' cnt hd q hq
    exact hd q hq
  | cons g fs ih =>
    intro d d' cnt hd q hq
    simp only [runFiles]
    apply ih
    · intro p hp
      by_cases hgf : g = f
      · subst hgf
        rw [dictLookup_updateAll_processFile K (O g) cfg exts maxMB g p d hp,
          dictLookup_updateAll_processFile K (O' g) cfg exts maxMB g p d' hp]
        exact hd p hp
      · rw [hO g hgf]
        rcases processFile_shape K (O' g) cfg exts maxMB g with h | ⟨s, _, h⟩
        · rw [h]
          exact hd p hp
        · rw [h, dictUpdateAll_single, dictUpdateAll_single,
            dictLookup_dictInsert, dictLookup_dictInsert]
          by_cases hpg : p = g
          · rw [if_pos hpg, if_pos hpg]
          · rw [if_neg hpg, if_neg hpg]
            exact hd p hp
    · exact hq

/-- Concrete configuration with every optional capability disabled. -/
def cfgNone : Config := ⟨false, false, false, false, false, false⟩

/-- Concrete oracle: a 20 MiB file with empty text and extractor results. -/
def oracleBig : FileOracle := ⟨.ok 20971520, .ok [], ∅, ∅, ∅, ∅, ∅⟩

/-- Concrete oracle whose size probe raises. -/
def oracleFail : FileOracle := ⟨.error (), .ok [], ∅, ∅, ∅, ∅, ∅⟩

/-- C6: a file whose size exceeds the configured maximum is handled before
any extractor is consulted: for every oracle (hence for every possible
extractor behaviour) `process_file` returns the empty dict and logs one
warning-level (not error) diagnostic naming the file. -/
theorem c6_size_gate (K : Finset Str) (o : FileOracle) (cfg : Config)
    (exts : List Pattern) (maxMB : ℚ) (path : Str) (n : Nat)
    (hs : o.size = .ok n) (hgt : maxMB < (n : ℚ) / (1024 * 1024)) :
    processFile K o cfg exts maxMB path = ([], [⟨Level.warn, path⟩]) := by
  unfold processFile processFileFound
  rw [hs, exceptBind_ok, if_pos hgt]
  simp [pure, Except.pure, finishFile]

/-- Witness for C6: a 20 MiB file against a 10 MB limit. -/
theorem c6_size_gate_witness :
    oracleBig.size = .ok 20971520 ∧
    (10 : ℚ) < ((20971520 : Nat) : ℚ) / (1024 * 1024) ∧
    processFile ∅ oracleBig cfgNone [starPat ".txt"] 10 (str "/r/big.txt") =
      ([], [⟨Level.warn, str "/r/big.txt"⟩]) :=
  ⟨rfl, by norm_num,
    c6_size_gate ∅ oracleBig cfgNone [starPat ".txt"] 10 (str "/r/big.txt")
      20971520 rfl (by norm_num)⟩

/-- C5: a failure escaping the body of `process_file` is caught at the
worker boundary: the failing file yields the empty dict plus one
error-level diagnostic naming it (never an exception), and the recorded
result of every other path is unaffected by that file's oracle. -/
theorem c5_failure_contained (K : Finset Str) (O O' : Str → FileOracle)
    (cfg : Config) (exts : List Pattern) (maxMB : ℚ) (order : List Str)
    (startCount : Nat) (f p : Str)
    (hfail : processFileFound K (O f) cfg exts maxMB f = .error ())
    (hO : ∀ g, g ≠ f → O g = O' g) (hp : p ≠ f) :
    processFile K (O f) cfg exts maxMB f = ([], [⟨Level.error, f⟩]) ∧
    dictLookup (searchFiles K O cfg exts maxMB order startCount).results p =
      dictLookup (searchFiles K O' cfg exts maxMB order startCount).results p := by
  constructor
  · unfold processFile
    rw [hfail]
  · exact runFiles_lookup_congr K O O' cfg exts maxMB f hO order [] [] startCount
      (fun q _ => rfl) p hp

/-- Witness for C5: a failing size probe on one of two scanned files. -/
theorem c5_failure_contained_witness :
    processFileFound ∅ oracleFail cfgNone [] 10 (str "/a") = .error () ∧
    str "/b" ≠ str "/a" ∧
    (processFile ∅ oracleFail cfgNone [] 10 (str "/a") =
        ([], [⟨Level.error, str "/a"⟩]) ∧
      dictLookup (searchFiles ∅ (fun _ => oracleFail) cfgNone [] 10
          [str "/a", str "/b"] 0).results (str "/b") =
        dictLookup (searchFiles ∅ (fun _ => oracleFail) cfgNone [] 10
          [str "/a", str "/b"] 0).results (str "/b")) :=
  ⟨rfl, by decide,
    c5_failure_contained ∅ (fun _ => oracleFail) (fun _ => oracleFail) cfgNone []
      10 [str "/a", str "/b"] 0 (str "/a") (str "/b") rfl (fun _ _ => rfl)
      (by decide)⟩

theorem runFiles_results_invariants (K : Finset Str) (O : Str → FileOracle)
    (cfg : Config) (exts : List Pattern) (maxMB : ℚ) :
    ∀ (order : List Str) (d : Dict) (cnt : Nat),
      (∀ kv ∈ d, kv.2 ≠ ∅) → (dictKeys d).Nodup →
      (∀ kv ∈ (runFiles K O cfg exts maxMB order d cnt).results, kv.2 ≠ ∅) ∧
        (dictKeys (runFiles K O cfg exts maxMB order d cnt).results).Nodup := by
  intro order
  induction order with
  | nil =>
    intro d cnt hv hk
    exact ⟨hv, hk⟩
  | cons g fs ih =>
    intro d cnt hv hk
    simp only [runFiles]
    rcases processFile_shape K (O g) cfg exts maxMB g with h | ⟨s, hsne, h⟩
    · rw [h]
      exact ih d (cnt + 1) hv hk
    · rw [h, dictUpdateAll_single]
      apply ih
      · intro kv hkv
        rcases mem_dictInsert hkv with h1 | h1
        · exact hv kv h1
        · rw [h1]
          exact hsne
      · exact dictKeys_dictInsert_nodup g s hk

/-- C9: throughout a scan, the results mapping holds only entries whose
matched-keyword set is non-empty, and each path occurs at most once
among its keys. -/
theorem c9_results_invariants (K : Finset Str) (O : Str → FileOracle)
    (cfg : Config) (exts : List Pattern) (maxMB : ℚ)
    (order : List Str) (startCount : Nat) :
    (∀ kv ∈ (searchFiles K O cfg exts maxMB order startCount).results,
        kv.2 ≠ ∅) ∧
      (dictKeys (searchFiles K O cfg exts maxMB order startCount).results).Nodup :=
  runFiles_results_invariants K O cfg exts maxMB order [] startCount
    (fun kv hkv => absurd hkv (List.not_mem_nil kv)) List.nodup_nil

/-- Witness for C9 at a concrete two-file run. -/
theorem c9_results_invariants_witness :
    (∀ kv ∈ (searchFiles ∅ (fun _ => oracleBig) cfgNone [starPat ".txt"] 10
        [str "/a.txt", str "/b.txt"] 0).results, kv.2 ≠ ∅) ∧
      (dictKeys (searchFiles ∅ (fun _ => oracleBig) cfgNone [starPat ".txt"] 10
        [str "/a.txt", str "/b.txt"] 0).results).Nodup :=
  c9_results_invariants ∅ (fun _ => oracleBig) cfgNone [starPat ".txt"] 10
    [str "/a.txt", str "/b.txt"] 0

/-! ### Keys and progress events of one scan -/

theorem runFiles_keys (K : Finset Str) (O : Str → FileOracle) (cfg : Config)
    (exts : List Pattern) (maxMB : ℚ) :
    ∀ (order : List Str) (d : Dict) (cnt : Nat),
      order.Nodup → (∀ g ∈ order, g ∉ dictKeys d) →
      dictKeys (runFiles K O cfg exts maxMB order d cnt).results =
        dictKeys d ++
          order.filter
            (fun f => !(processFile K (O f) cfg exts maxMB f).1.isEmpty) := by
  intro order
  induction order with
  | nil =>
    intro d cnt _ _
    simp [runFiles]
  | cons g fs ih =>
    intro d cnt hnd hfresh
    simp only [runFiles, List.filter_cons]
    rcases processFile_shape K (O g) cfg exts maxMB g with h | ⟨s, _, h⟩
    · rw [h]
      simp only [List.isEmpty_nil, Bool.not_true, Bool.false_eq_true, if_false]
      exact ih d (cnt + 1) (List.nodup_cons.1 hnd).2
        (fun q hq => hfresh q (List.mem_cons_of_mem g hq))
    · rw [h, dictUpdateAll_single]
      simp only [List.isEmpty_cons, Bool.not_false, if_true]
      have hgfresh : g ∉ dictKeys d := hfresh g (List.mem_cons_self g fs)
      rw [ih (dictInsert d g s) (cnt + 1) (List.nodup_cons.1 hnd).2 ?fresh]
      · rw [dictKeys_dictInsert_fresh s hgfresh, List.append_assoc]
        rfl
      case fresh =>
        intro q hq
        rw [dictKeys_dictInsert_fresh s hgfresh]
        intro hmem
        rcases List.mem_append.1 hmem with hm | hm
        · exact hfresh q (List.mem_cons_of_mem g hq) hm
        · have hqg : q = g := by simpa using hm
          exact (List.nodup_cons.1 hnd).1 (hqg ▸ hq)

theorem runFiles_events_snd (K : Finset Str) (O : Str → FileOracle)
    (cfg : Config) (exts : List Pattern) (maxMB : ℚ) :
    ∀ (order : List Str) (d : Dict) (cnt : Nat),
      ((runFiles K O cfg exts maxMB order d cnt).events).map Prod.snd =
        List.range' (cnt + 1) order.length := by
  intro order
  induction order with
  | nil =>
    intro d cnt
    rfl
  | cons g fs ih =>
    intro d cnt
    simp only [runFiles, List.map_cons, List.length_cons, List.range'_succ]
    rw [ih]

theorem chain'_le_range' : ∀ (n s : Nat),
    List.Chain' (fun a b => a ≤ b) (List.range' s n)
  | 0, _ => List.chain'_nil
  | 1, s => by simp
  | (n + 2), s => by
    rw [List.range'_succ, List.range'_succ, List.chain'_cons]
    refine ⟨by omega, ?_⟩
    rw [← List.range'_succ]
    exact chain'_le_range' (n + 1) (s + 1)

theorem runFiles_events_chain (K : Finset Str) (O : Str → FileOracle)
    (cfg : Config) (exts : List Pattern) (maxMB : ℚ)
    (order : List Str) (d : Dict) (cnt : Nat) :
    List.Chain' (fun a b => a.2 ≤ b.2)
      (runFiles K O cfg exts maxMB order d cnt).events := by
  have h2 : List.Chain' (fun a b => a ≤ b)
      (((runFiles K O cfg exts maxMB order d cnt).events).map Prod.snd) := by
    rw [runFiles_events_snd]
    exact chain'_le_range' order.length (cnt + 1)
  exact (List.chain'_map Prod.snd).1 h2

/-- C2: over one root, every admitted file ends up in exactly one of the
recorded-match keys and the processed-with-no-match list (each of which
is duplicate-free, so it is counted exactly once and never silently
dropped), and the processed counts carried by successive progress events
are monotonically non-decreasing. -/
theorem c2_each_file_once_and_monotone (K : Finset Str) (O : Str → FileOracle)
    (cfg : Config) (exts : List Pattern) (maxMB : ℚ) (files order : List Str)
    (startCount : Nat)
    (hnd : (admitted exts files).Nodup)
    (hperm : order.Perm (admitted exts files)) :
    (∀ f ∈ admitted exts files,
      (f ∈ dictKeys (searchFiles K O cfg exts maxMB order startCount).results ∧
        f ∉ noMatchFiles K O cfg exts maxMB order) ∨
      (f ∉ dictKeys (searchFiles K O cfg exts maxMB order startCount).results ∧
        f ∈ noMatchFiles K O cfg exts maxMB order)) ∧
    (dictKeys (searchFiles K O cfg exts maxMB order startCount).results).Nodup ∧
    (noMatchFiles K O cfg exts maxMB order).Nodup ∧
    List.Chain' (fun a b => a.2 ≤ b.2)
      (searchFiles K O cfg exts maxMB order startCount).events := by
  have hndo : order.Nodup := hperm.nodup_iff.2 hnd
  have hkeys := runFiles_keys K O cfg exts maxMB order [] startCount hndo
    (by simp [dictKeys])
  have hkeys' : dictKeys (searchFiles K O cfg exts maxMB order startCount).results
      = order.filter (fun f => !(processFile K (O f) cfg exts maxMB f).1.isEmpty) := by
    unfold searchFiles
    rw [hkeys]
    simp [dictKeys]
  refine ⟨?_, ?_, ?_, ?_⟩
  · intro f hf
    have hford : f ∈ order := (hperm.mem_iff).2 hf
    rw [hkeys']
    unfold noMatchFiles
    by_cases hpf : (processFile K (O f) cfg exts maxMB f).1.isEmpty = true
    · right
      constructor
      · intro hmem
        have := (List.mem_filter.1 hmem).2
        rw [hpf] at this
        exact absurd this (by simp)
      · exact List.mem_filter.2 ⟨hford, hpf⟩
    · left
      constructor
      · exact List.mem_filter.2 ⟨hford, by simpa using hpf⟩
      · intro hmem
        exact hpf (List.mem_filter.1 hmem).2
  · rw [hkeys']
    exact hndo.filter _
  · exact hndo.filter _
  · exact runFiles_events_chain K O cfg exts maxMB order [] startCount

/-- Witness for C2 at a concrete two-file root. -/
theorem c2_each_file_once_and_monotone_witness :
    (admitted [starPat ".txt"] [str "/r/a.txt", str "/r/b.txt"]).Nodup ∧
    ((∀ f ∈ admitted [starPat ".txt"] [str "/r/a.txt", str "/r/b.txt"],
      (f ∈ dictKeys (searchFiles ∅ (fun _ => oracleBig) cfgNone [starPat ".txt"] 10
          (admitted [starPat ".txt"] [str "/r/a.txt", str "/r/b.txt"]) 0).results ∧
        f ∉ noMatchFiles ∅ (fun _ => oracleBig) cfgNone [starPat ".txt"] 10
          (admitted [starPat ".txt"] [str "/r/a.txt", str "/r/b.txt"])) ∨
      (f ∉ dictKeys (searchFiles ∅ (fun _ => oracleBig) cfgNone [starPat ".txt"] 10
          (admitted [starPat ".txt"] [str "/r/a.txt", str "/r/b.txt"]) 0).results ∧
        f ∈ noMatchFiles ∅ (fun _ => oracleBig) cfgNone [starPat ".txt"] 10
          (admitted [starPat ".txt"] [str "/r/a.txt", str "/r/b.txt"]))) ∧
    (dictKeys (searchFiles ∅ (fun _ => oracleBig) cfgNone [starPat ".txt"] 10
      (admitted [starPat ".txt"] [str "/r/a.txt", str "/r/b.txt"]) 0).results).Nodup ∧
    (noMatchFiles ∅ (fun _ => oracleBig) cfgNone [starPat ".txt"] 10
      (admitted [starPat ".txt"] [str "/r/a.txt", str "/r/b.txt"])).Nodup ∧
    List.Chain' (fun a b => a.2 ≤ b.2)
      (searchFiles ∅ (fun _ => oracleBig) cfgNone [starPat ".txt"] 10
        (admitted [starPat ".txt"] [str "/r/a.txt", str "/r/b.txt"]) 0).events) :=
  ⟨by decide,
    c2_each_file_once_and_monotone ∅ (fun _ => oracleBig) cfgNone [starPat ".txt"]
      10 [str "/r/a.txt", str "/r/b.txt"]
      (admitted [starPat ".txt"] [str "/r/a.txt", str "/r/b.txt"]) 0 (by decide)
      (List.Perm.refl _)⟩

/-! ## Archive processing (`search_in_archive`, file_processing.py
lines 154-262, zip branch lines 158-184) -/

/-- Entry-name suffixes read directly as text inside archives. -/
def textSuffixes : List Str :=
  [str ".txt", str ".csv", str ".log", str ".xml", str ".html", str ".htm"]

/-- Entry-name suffixes dispatched to the image extractor. -/
def imageSuffixes : List Str :=
  [str ".png", str ".jpg", str ".jpeg", str ".bmp", str ".gif", str ".tiff"]

/-- `file.lower().endswith(tuple)`. -/
def endsWithOne (sufs : List Str) (nm : Str) : Bool :=
  sufs.any (fun suf => suf.isSuffixOf (lowerStr nm))

def isTextName (nm : Str) : Bool := endsWithOne textSuffixes nm

def isImageName (nm : Str) : Bool := endsWithOne imageSuffixes nm

def isPdfName (nm : Str) : Bool := (str ".pdf").isSuffixOf (lowerStr nm)

def isDocxName (nm : Str) : Bool := (str ".docx").isSuffixOf (lowerStr nm)

def isExcelName (nm : Str) : Bool :=
  (str ".xls").isSuffixOf (lowerStr nm) || (str ".xlsx").isSuffixOf (lowerStr nm)

/-- One zip entry: its name, the outcome of `z.open`/`read` (for text
entries), the outcome of `z.extract` plus the `os.path.isfile` check
(for binary entries), and the (total) extractor results. -/
structure ZEntry where
  name : Str
  readRes : Except Unit Str
  extractRes : Except Unit Bool
  ocr : Finset Str
  pdf : Finset Str
  docx : Finset Str
  excel : Finset Str

/-- `fnmatch` of one entry name against the configured patterns. -/
def entryPatMatch (exts : List Pattern) (e : ZEntry) : Bool :=
  exts.any (fun pt => globMatch pt e.name)

/-- The dispatch on an extracted binary entry (zip branch lines 172-184):
images always go to `search_in_image` (which yields `∅` without OCR);
pdf/docx/excel go to their extractors only when the capability flag is
set; anything else is ignored. -/
def entryMatches (cfg : Config) (e : ZEntry) : Finset Str :=
  if isImageName e.name then (if cfg.hasOcr then e.ocr else ∅)
  else if isPdfName e.name && cfg.hasPdf then e.pdf
  else if isDocxName e.name && cfg.hasDocx then e.docx
  else if isExcelName e.name && cfg.hasExcel then e.excel
  else ∅

/-- The `for file in z.namelist()` loop.  The whole loop sits in one
`try`: an exception while handling an entry ends the loop, and the outer
handler returns the matches accumulated so far. -/
def zipGo (K : Finset Str) (cfg : Config) (exts : List Pattern) :
    List ZEntry → Finset Str → Finset Str
  | [], acc => acc
  | e :: es, acc =>
    if entryPatMatch exts e then
      if isTextName e.name then
        match e.readRes with
        | .ok s => zipGo K cfg exts es (acc ∪ searchInText K s)
        | .error _ => acc
      else
        match e.extractRes with
        | .ok true => zipGo K cfg exts es (acc ∪ entryMatches cfg e)
        | .ok false => zipGo K cfg exts es acc
        | .error _ => acc
    else zipGo K cfg exts es acc

/-- `search_in_archive` on a `.zip` file, over its entry list. -/
def searchInArchiveZip (K : Finset Str) (cfg : Config) (exts : List Pattern)
    (entries : List ZEntry) : Finset Str :=
  zipGo K cfg exts entries ∅

/-- Processing of this entry raises (text read or extraction failure). -/
def entryAborts (e : ZEntry) : Bool :=
  if isTextName e.name then
    match e.readRes with
    | .error _ => true
    | .ok _ => false
  else
    match e.extractRes with
    | .error _ => true
    | .ok _ => false

/-- Processing of this entry completes without raising. -/
abbrev entryCompletes (e : ZEntry) : Prop := entryAborts e = false

/-! ### Archive loop lemmas -/

theorem zipGo_append (K : Finset Str) (cfg : Config) (exts : List Pattern) :
    ∀ (es₁ es₂ : List ZEntry) (acc : Finset Str),
      (∀ e ∈ es₁, entryPatMatch exts e = true → entryCompletes e) →
      zipGo K cfg exts (es₁ ++ es₂) acc =
        zipGo K cfg exts es₂ (zipGo K cfg exts es₁ acc) := by
  intro es₁
  induction es₁ with
  | nil =>
    intro es₂ acc _
    rfl
  | cons e es ih =>
    intro es₂ acc hok
    have hok' : ∀ e' ∈ es, entryPatMatch exts e' = true → entryCompletes e' :=
      fun e' he' => hok e' (List.mem_cons_of_mem e he')
    simp only [List.cons_append, zipGo]
    by_cases hm : entryPatMatch exts e = true
    · rw [if_pos hm, if_pos hm]
      have hcomp := hok e (List.mem_cons_self e es) hm
      unfold entryCompletes entryAborts at hcomp
      by_cases ht : isTextName e.name = true
      · rw [if_pos ht, if_pos ht]
        rw [if_pos ht] at hcomp
        cases hr : e.readRes with
        | ok s => exact ih es₂ _ hok'
        | error u =>
          rw [hr] at hcomp
          exact absurd hcomp (by simp)
      · rw [if_neg ht, if_neg ht]
        rw [if_neg ht] at hcomp
        cases hr : e.extractRes with
        | ok b => cases b <;> exact ih es₂ _ hok'
        | error u =>
          rw [hr] at hcomp
          exact absurd hcomp (by simp)
    · rw [if_neg hm, if_neg hm]
      exact ih es₂ acc hok'

theorem zipGo_abort (K : Finset Str) (cfg : Config) (exts : List Pattern)
    (e : ZEntry) (es : List ZEntry) (acc : Finset Str)
    (hm : entryPatMatch exts e = true) (hab : entryAborts e = true) :
    zipGo K cfg exts (e :: es) acc = acc := by
  unfold entryAborts at hab
  simp only [zipGo, if_pos hm]
  by_cases ht : isTextName e.name = true
  · rw [if_pos ht]
    rw [if_pos ht] at hab
    cases hr : e.readRes with
    | ok s =>
      rw [hr] at hab
      exact absurd hab (by simp)
    | error u => rfl
  · rw [if_neg ht]
    rw [if_neg ht] at hab
    cases hr : e.extractRes with
    | ok b =>
      rw [hr] at hab
      exact absurd hab (by simp)
    | error u => rfl

theorem isSuffixOf_eq_false_of_incomp {l s t : Str} (h : t <:+ l)
    (h1 : ¬ t <:+ s) (h2 : ¬ s <:+ t) : s.isSuffixOf l = false := by
  rw [Bool.eq_false_iff]
  intro hc
  have hs : s <:+ l := List.isSuffixOf_iff_suffix.1 hc
  rcases List.suffix_or_suffix_of_suffix h hs with hh | hh
  · exact h1 hh
  · exact h2 hh

/-- A name ending in `.pdf` matches none of the other dispatch suffixes. -/
theorem pdf_name_disjoint {nm : Str} (h : isPdfName nm = true) :
    isTextName nm = false ∧ isImageName nm = false ∧
    isDocxName nm = false ∧ isExcelName nm = false := by
  have hp : str ".pdf" <:+ lowerStr nm := List.isSuffixOf_iff_suffix.1 h
  refine ⟨?_, ?_, ?_, ?_⟩
  · simp only [isTextName, endsWithOne, textSuffixes, List.any_cons, List.any_nil,
      Bool.or_eq_false_iff]
    exact ⟨isSuffixOf_eq_false_of_incomp hp (by decide) (by decide),
      isSuffixOf_eq_false_of_incomp hp (by decide) (by decide),
      isSuffixOf_eq_false_of_incomp hp (by decide) (by decide),
      isSuffixOf_eq_false_of_incomp hp (by decide) (by decide),
      isSuffixOf_eq_false_of_incomp hp (by decide) (by decide),
      isSuffixOf_eq_false_of_incomp hp (by decide) (by decide), trivial⟩
  · simp only [isImageName, endsWithOne, imageSuffixes, List.any_cons, List.any_nil,
      Bool.or_eq_false_iff]
    exact ⟨isSuffixOf_eq_false_of_incomp hp (by decide) (by decide),
      isSuffixOf_eq_false_of_incomp hp (by decide) (by decide),
      isSuffixOf_eq_false_of_incomp hp (by decide) (by decide),
      isSuffixOf_eq_false_of_incomp hp (by decide) (by decide),
      isSuffixOf_eq_false_of_incomp hp (by decide) (by decide),
      isSuffixOf_eq_false_of_incomp hp (by decide) (by decide), trivial⟩
  · exact isSuffixOf_eq_false_of_incomp hp (by decide) (by decide)
  · simp only [isExcelName, Bool.or_eq_false_iff]
    exact ⟨isSuffixOf_eq_false_of_incomp hp (by decide) (by decide),
      isSuffixOf_eq_false_of_incomp hp (by decide) (by decide)⟩

/-- A capability-disabled pdf entry yields no matches at dispatch. -/
theorem entryMatches_pdf_disabled {cfg : Config} {e : ZEntry}
    (hp : isPdfName e.name = true) (hcap : cfg.hasPdf = false) :
    entryMatches cfg e = ∅ := by
  obtain ⟨ht, hi, hd, hx⟩ := pdf_name_disjoint hp
  simp [entryMatches, hi, hp, hcap, hd, hx]

/-! ### C4: entry failure aborts the remaining entries of the archive -/

/-- A zip entry whose text read succeeds and matches the keyword. -/
def entGood : ZEntry := ⟨str "doc.txt", .ok (str "kw memo"), .ok true, ∅, ∅, ∅, ∅⟩

/-- A zip entry whose text read raises. -/
def entBad : ZEntry := ⟨str "bad.txt", .error (), .ok true, ∅, ∅, ∅, ∅⟩

/-- A one-keyword set. -/
def kwSet : Finset Str := {str "kw"}

/-- C4 counterexample: with a failing first entry, the sibling entry's
matches (non-empty, as the singleton-archive run shows) do not
contribute to the result, which is empty. -/
theorem c4_counterexample :
    searchInArchiveZip kwSet cfgNone [starPat ".txt"] [entBad, entGood] = ∅ ∧
    searchInArchiveZip kwSet cfgNone [starPat ".txt"] [entGood] =
      searchInText kwSet (str "kw memo") ∧
    searchInText kwSet (str "kw memo") ≠ ∅ := by
  refine ⟨?_, ?_, ?_⟩ <;> decide

/-- C4 amended: entries processed before the first failing
pattern-matching entry contribute all their matches, and the failure
ends the archive loop: the result equals that of the prefix alone
(returned normally, not as an exception); entries after the failure are
skipped. -/
theorem c4_amended_failure_keeps_prefix (K : Finset Str) (cfg : Config)
    (exts : List Pattern) (es₁ es₂ : List ZEntry) (e : ZEntry)
    (hpre : ∀ e' ∈ es₁, entryPatMatch exts e' = true → entryCompletes e')
    (hm : entryPatMatch exts e = true) (hab : entryAborts e = true) :
    searchInArchiveZip K cfg exts (es₁ ++ e :: es₂) =
      searchInArchiveZip K cfg exts es₁ := by
  unfold searchInArchiveZip
  rw [zipGo_append K cfg exts es₁ (e :: es₂) ∅ hpre,
    zipGo_abort K cfg exts e es₂ _ hm hab]

/-- Witness for C4's amended claim on concrete entries. -/
theorem c4_amended_failure_keeps_prefix_witness :
    (∀ e' ∈ [entGood], entryPatMatch [starPat ".txt"] e' = true →
      entryCompletes e') ∧
    entryPatMatch [starPat ".txt"] entBad = true ∧
    entryAborts entBad = true ∧
    searchInArchiveZip kwSet cfgNone [starPat ".txt"] [entGood, entBad] =
      searchInArchiveZip kwSet cfgNone [starPat ".txt"] [entGood] :=
  ⟨by decide, by decide, by decide,
    c4_amended_failure_keeps_prefix kwSet cfgNone [starPat ".txt"] [entGood] []
      entBad (by decide) (by decide) (by decide)⟩

/-! ### C3: the admission gate versus the spec's FileGate -/

/-- Modelled from the spec (§4.2 FileGate): the capability an extension
needs is available; plain text and zip need none. -/
def capAvailable (cfg : Config) (ext : Str) : Bool :=
  if ext ∈ imageExtList then cfg.hasOcr
  else if ext = str ".pdf" then cfg.hasPdf
  else if ext = str ".docx" then cfg.hasDocx
  else if ext = str ".xls" ∨ ext = str ".xlsx" then cfg.hasExcel
  else if ext = str ".7z" then cfg.has7z
  else if ext = str ".rar" then cfg.hasRar
  else true

/-- Modelled from the spec (§3, §4.2): the full FileGate predicate —
size within limit, extension matching a configured pattern, and the
required capability available.  Stated only to compare the code's
admission behaviour against it. -/
def fileGateSpec (cfg : Config) (exts : List Pattern) (maxMB : ℚ)
    (f : Str) (size : Nat) : Bool :=
  (decide (¬ maxMB < (size : ℚ) / (1024 * 1024)) && admitsEnum exts f) &&
    capAvailable cfg (extOf f)

/-- C3 counterexample: a 20 MiB `.txt` file against a 10 MB limit is
admitted by the enumeration gate (and so reaches the scheduler) even
though the spec's full FileGate predicate rejects it on size. -/
theorem c3_counterexample :
    admitsEnum [starPat ".txt"] (str "/r/big.txt") = true ∧
    str "/r/big.txt" ∈ admitted [starPat ".txt"] [str "/r/big.txt"] ∧
    fileGateSpec cfgNone [starPat ".txt"] 10 (str "/r/big.txt") 20971520 =
      false := by
  refine ⟨by decide, by decide, ?_⟩
  unfold fileGateSpec
  have h10 : (10 : ℚ) < ((20971520 : Nat) : ℚ) / (1024 * 1024) := by norm_num
  rw [decide_eq_false (by simpa using h10)]
  rfl

theorem zipGo_filter_pat (K : Finset Str) (cfg : Config) (exts : List Pattern) :
    ∀ (es : List ZEntry) (acc : Finset Str),
      zipGo K cfg exts es acc =
        zipGo K cfg exts (es.filter (entryPatMatch exts)) acc := by
  intro es
  induction es with
  | nil =>
    intro acc
    rfl
  | cons e es ih =>
    intro acc
    by_cases hm : entryPatMatch exts e = true
    · rw [List.filter_cons_of_pos hm]
      simp only [zipGo, if_pos hm]
      by_cases ht : isTextName e.name = true
      · rw [if_pos ht, if_pos ht]
        cases e.readRes with
        | ok s => exact ih _
        | error u => rfl
      · rw [if_neg ht, if_neg ht]
        cases e.extractRes with
        | ok b => cases b <;> exact ih _
        | error u => rfl
    · rw [List.filter_cons_of_neg hm]
      simp only [zipGo, if_neg hm]
      exact ih acc

/-- C3 amended: admission checks only the extension pattern against the
base name; for zip entries found during extraction the pattern filter is
re-applied (only matching entries are consulted) and the capability
flags are re-checked (a pdf entry with the pdf capability disabled
contributes nothing); the size limit is not re-checked for entries, and
for top-level files it is enforced only later, inside `process_file`. -/
theorem c3_amended_admission_gate :
    (∀ (exts : List Pattern) (files : List Str) (f : Str),
      f ∈ admitted exts files → ∃ pt ∈ exts, globMatch pt (basename f) = true) ∧
    (∀ (K : Finset Str) (cfg : Config) (exts : List Pattern) (es : List ZEntry),
      searchInArchiveZip K cfg exts es =
        searchInArchiveZip K cfg exts (es.filter (entryPatMatch exts))) ∧
    (∀ (K : Finset Str) (cfg : Config) (exts : List Pattern) (e : ZEntry)
        (es : List ZEntry),
      isPdfName e.name = true → cfg.hasPdf = false → e.extractRes = .ok true →
      searchInArchiveZip K cfg exts (e :: es) =
        searchInArchiveZip K cfg exts es) := by
  refine ⟨?_, ?_, ?_⟩
  · intro exts files f hf
    have hm : admitsEnum exts f = true := (List.mem_filter.1 hf).2
    unfold admitsEnum at hm
    simpa using List.any_eq_true.1 hm
  · intro K cfg exts es
    exact zipGo_filter_pat K cfg exts es ∅
  · intro K cfg exts e es hpdf hcap hex
    obtain ⟨ht, _, _, _⟩ := pdf_name_disjoint hpdf
    unfold searchInArchiveZip
    simp only [zipGo]
    by_cases hm : entryPatMatch exts e = true
    · rw [if_pos hm, if_neg (by rw [ht]; exact fun hh => absurd hh (by simp)), hex,
        entryMatches_pdf_disabled hpdf hcap, Finset.union_empty]
    · rw [if_neg hm]

/-- Witness for C3's amended claim at concrete inputs. -/
theorem c3_amended_admission_gate_witness :
    str "/r/a.txt" ∈ admitted [starPat ".txt"] [str "/r/a.txt"] ∧
    (∃ pt ∈ [starPat ".txt"], globMatch pt (basename (str "/r/a.txt")) = true) ∧
    searchInArchiveZip kwSet cfgNone [starPat ".txt"] [entGood, entBad] =
      searchInArchiveZip kwSet cfgNone [starPat ".txt"]
        ([entGood, entBad].filter (entryPatMatch [starPat ".txt"])) ∧
    (isPdfName (str "inner.pdf") = true ∧ cfgNone.hasPdf = false ∧
      searchInArchiveZip kwSet cfgNone [[GlobTok.star]]
          [⟨str "inner.pdf", .ok [], .ok true, ∅, kwSet, ∅, ∅⟩, entGood] =
        searchInArchiveZip kwSet cfgNone [[GlobTok.star]] [entGood]) :=
  ⟨by decide,
    (c3_amended_admission_gate.1 [starPat ".txt"] [str "/r/a.txt"]
      (str "/r/a.txt") (by decide)),
    (c3_amended_admission_gate.2.1 kwSet cfgNone [starPat ".txt"]
      [entGood, entBad]),
    by decide, rfl,
    (c3_amended_admission_gate.2.2 kwSet cfgNone [[GlobTok.star]]
      ⟨str "inner.pdf", .ok [], .ok true, ∅, kwSet, ∅, ∅⟩ [entGood]
      (by decide) rfl rfl)⟩

/-! ## Cancellation across roots (`SearchApp.run_search`,
guiV4.py lines 462-523) -/

/-- `run_search`: the stop flag is consulted once per directory root
(`if not self.is_searching: break`); `search_files` has no flag check of
its own, so every admitted file of an entered root is processed.  The
flag is modelled as set once `K` files have started; the argument is the
number of files started so far and the result the final processed
count. -/
def runSearchCount (K : Nat) : List (List Str) → Nat → Nat
  | [], t => t
  | r :: rs, t => if K ≤ t then t else runSearchCount K rs (t + r.length)

/-- The size of the largest root's admitted file list. -/
def maxRootLen (roots : List (List Str)) : Nat :=
  (roots.map List.length).foldr max 0

/-- C7 counterexample: with worker count 1 and the flag set after 1 of
the 3 files of the already entered root has started, all 3 files are
still processed, violating the claimed `K + W` bound — there is no flag
check between files. -/
theorem c7_counterexample :
    runSearchCount 1 [[str "/r/a.txt", str "/r/b.txt", str "/r/c.txt"]] 0 = 3 ∧
    ¬ (3 ≤ 1 + 1) := by
  exact ⟨by decide, by decide⟩

/-- C7 amended: the stop flag is checked between roots only: once it is
set no further root starts, and the processed count is bounded by `K`
plus the largest root's admitted-file count (not by `K` plus the worker
count, since no check happens between individual files). -/
theorem c7_amended_cancellation_bound :
    (∀ (K : Nat) (roots : List (List Str)),
      runSearchCount K roots 0 ≤ K + maxRootLen roots) ∧
    (∀ (K t : Nat) (r : List Str) (rs : List (List Str)), K ≤ t →
      runSearchCount K (r :: rs) t = t) := by
  constructor
  · intro K roots
    have hgen : ∀ (rs : List (List Str)) (t : Nat),
        runSearchCount K rs t ≤ max t (K + maxRootLen rs) := by
      intro rs
      induction rs with
      | nil =>
        intro t
        simp [runSearchCount]
      | cons r rs ih =>
        intro t
        unfold runSearchCount
        by_cases hK : K ≤ t
        · rw [if_pos hK]
          exact le_max_left _ _
        · rw [if_neg hK]
          have h1 := ih (t + r.length)
          have h2 : maxRootLen rs ≤ maxRootLen (r :: rs) := by
            unfold maxRootLen
            simp only [List.map_cons, List.foldr_cons]
            exact le_max_right _ _
          have h3 : r.length ≤ maxRootLen (r :: rs) := by
            unfold maxRootLen
            simp only [List.map_cons, List.foldr_cons]
            exact le_max_left _ _
          have h4 : t + r.length ≤ K + maxRootLen (r :: rs) := by omega
          calc runSearchCount K rs (t + r.length)
              ≤ max (t + r.length) (K + maxRootLen rs) := h1
            _ ≤ K + maxRootLen (r :: rs) := max_le h4 (by omega)
            _ ≤ max t (K + maxRootLen (r :: rs)) := le_max_right _ _
    simpa using hgen roots 0
  · intro K t r rs hK
    unfold runSearchCount
    rw [if_pos hK]

/-- Witness for C7's amended claim. -/
theorem c7_amended_cancellation_bound_witness :
    runSearchCount 2 [[str "/r/a.txt"], [str "/r/b.txt"]] 0 ≤
      2 + maxRootLen [[str "/r/a.txt"], [str "/r/b.txt"]] ∧
    2 ≤ 5 ∧
    runSearchCount 2 [[str "/r/a.txt"]] 5 = 5 :=
  ⟨c7_amended_cancellation_bound.1 2 [[str "/r/a.txt"], [str "/r/b.txt"]],
    by decide,
    c7_amended_cancellation_bound.2 2 5 [str "/r/a.txt"] [] (by decide)⟩

/-! ## C8: the two keyword-loading failure modes -/

/-- C8 counterexample: a source that decodes (under UTF-8, and every
fallback) to a single blank line makes `load_keywords` raise the decode
`ValueError` — not a distinguishable empty-input error. -/
theorem c8_counterexample :
    loadKeywords (fun _ => some [str "  "]) = .error .decodeError ∧
    (Except.error LoadError.decodeError : Except LoadError (List Str)) ≠
      .error .emptyInput := by
  refine ⟨rfl, ?_⟩
  intro h
  injection h with h1
  exact absurd h1 (by decide)

/-- C8 amended: loading fails with the decode error both when no
supported encoding (UTF-8 first, then the fixed fallback list) decodes
the source and when every successful decoding yields zero non-blank
lines; no distinguishable empty-input error is ever produced. -/
theorem c8_amended_single_error (decode : Enc → Option (List Str)) :
    ((∀ e ∈ encodingOrder, decode e = none) →
      loadKeywords decode = .error .decodeError) ∧
    ((∀ e ∈ encodingOrder, ∀ ls, decode e = some ls → stripKeywords ls = []) →
      loadKeywords decode = .error .decodeError) ∧
    loadKeywords decode ≠ .error .emptyInput := by
  have hgen : ∀ (es : List Enc),
      ((∀ e ∈ es, decode e = none) →
        loadKeywordsGo decode es = .error .decodeError) ∧
      ((∀ e ∈ es, ∀ ls, decode e = some ls → stripKeywords ls = []) →
        loadKeywordsGo decode es = .error .decodeError) ∧
      loadKeywordsGo decode es ≠ .error .emptyInput := by
    intro es
    induction es with
    | nil => exact ⟨fun _ => rfl, fun _ => rfl, by simp [loadKeywordsGo]⟩
    | cons e es ih =>
      refine ⟨?_, ?_, ?_⟩
      · intro h
        simp only [loadKeywordsGo]
        rw [h e (List.mem_cons_self e es)]
        exact ih.1 (fun e' he' => h e' (List.mem_cons_of_mem e he'))
      · intro h
        simp only [loadKeywordsGo]
        cases hd : decode e with
        | none =>
          exact ih.2.1
            (fun e' he' ls' hd' => h e' (List.mem_cons_of_mem e he') ls' hd')
        | some ls =>
          have hstrip := h e (List.mem_cons_self e es) ls hd
          show (if stripKeywords ls = [] then loadKeywordsGo decode es
            else Except.ok (stripKeywords ls)) = Except.error LoadError.decodeError
          rw [if_pos hstrip]
          exact ih.2.1
            (fun e' he' ls' hd' => h e' (List.mem_cons_of_mem e he') ls' hd')
      · simp only [loadKeywordsGo]
        cases hd : decode e with
        | none => exact ih.2.2
        | some ls =>
          show (if stripKeywords ls = [] then loadKeywordsGo decode es
            else Except.ok (stripKeywords ls)) ≠ Except.error LoadError.emptyInput
          by_cases hk : stripKeywords ls = []
          · rw [if_pos hk]
            exact ih.2.2
          · rw [if_neg hk]
            simp
  exact hgen encodingOrder

/-- Witness for C8's amended claim: an all-blank decodable source. -/
theorem c8_amended_single_error_witness :
    loadKeywords (fun _ => some [str "  "]) = .error .decodeError ∧
    loadKeywords (fun _ => some [str "  "]) ≠ .error .emptyInput :=
  ⟨(c8_amended_single_error (fun _ => some [str "  "])).2.1
      (fun _ _ ls hd => by
        injection hd with h
        rw [← h]
        decide),
    (c8_amended_single_error (fun _ => some [str "  "])).2.2⟩

/-! ## C10: enumeration gate (base name) versus processing gate (full
path) -/

/-- The processing-time pattern check (file_processing.py line 279):
patterns are re-matched against the full path. -/
def procGateExt (exts : List Pattern) (path : Str) : Bool :=
  exts.any (fun pt => globMatch pt path)

theorem any_congr_mem {l : List Pattern} {f g : Pattern → Bool}
    (h : ∀ x ∈ l, f x = g x) : l.any f = l.any g := by
  induction l with
  | nil => rfl
  | cons a l ih =>
    simp only [List.any_cons]
    rw [h a (List.mem_cons_self a l),
      ih (fun x hx => h x (List.mem_cons_of_mem a hx))]

/-- On a `*suffix` pattern with separator-free suffix, matching the base
name and matching the full path coincide. -/
theorem starSuffix_gate_eq {pt : Pattern} (h : isStarSuffixNoSep pt = true)
    (path : Str) : globMatch pt (basename path) = globMatch pt path := by
  cases pt with
  | nil => exact absurd h (by simp [isStarSuffixNoSep])
  | cons tok p =>
    cases tok with
    | lit c => exact absurd h (by simp [isStarSuffixNoSep])
    | star =>
      rw [show isStarSuffixNoSep (GlobTok.star :: p) =
        (match patLits p with
          | some s => decide (sepCh ∉ s)
          | none => false) from rfl] at h
      cases hpl : patLits p with
      | none =>
        rw [hpl] at h
        exact absurd h (by simp)
      | some s =>
        rw [hpl] at h
        have hs : sepCh ∉ s := of_decide_eq_true h
        rw [patLits_eq hpl, globMatch_star_lits, globMatch_star_lits]
        exact decide_eq_decide.2 (suffix_basename_iff hs)

/-- A file whose size passes the gate but whose full path matches no
pattern is dropped by `process_file` with no result and no log. -/
theorem processFile_no_pattern (K : Finset Str) (o : FileOracle) (cfg : Config)
    (exts : List Pattern) (maxMB : ℚ) (path : Str) (n : Nat)
    (hs : o.size = .ok n) (hle : ¬ maxMB < (n : ℚ) / (1024 * 1024))
    (hpat : exts.any (fun pt => globMatch pt path) = false) :
    processFile K o cfg exts maxMB path = ([], []) := by
  unfold processFile processFileFound
  rw [hs, exceptBind_ok, if_neg hle, if_pos hpat]
  show finishFile path ∅ [] = ([], [])
  simp [finishFile]

/-- The pattern list `{a*, *}`: gates agree everywhere although `a*` is
not of the `*suffix` form. -/
def patsAgree : List Pattern := [GlobTok.lit 97 :: [GlobTok.star], [GlobTok.star]]

/-- C10 counterexample to "the two gates agree exactly when every pattern
is of the form `*suffix`": with patterns `{a*, *}` the gates agree on
every path (the `*` pattern matches everything on both sides), yet not
every pattern is of that form — agreement does not force the form. -/
theorem c10_counterexample :
    (∀ path : Str, admitsEnum patsAgree path = procGateExt patsAgree path) ∧
    ¬ patsAgree.all isStarSuffixPat = true := by
  constructor
  · intro path
    have h1 : admitsEnum patsAgree path = true := by
      unfold admitsEnum patsAgree
      simp only [List.any_cons, List.any_nil]
      rw [globMatch_star_all]
      simp
    have h2 : procGateExt patsAgree path = true := by
      unfold procGateExt patsAgree
      simp only [List.any_cons, List.any_nil]
      rw [globMatch_star_all]
      simp
    rw [h1, h2]
  · decide

/-- Concrete oracle for a small plain-text file containing a keyword. -/
def oracleSmall : FileOracle := ⟨.ok 0, .ok (str "kw"), ∅, ∅, ∅, ∅, ∅⟩

/-- The pattern `a*.txt`. -/
def aStarTxt : Pattern := GlobTok.lit 97 :: starPat ".txt"

/-- C10 amended: enumeration matches patterns against the base name while
`process_file` re-matches them against the full path, so (as the
concrete pattern `a*.txt` on `/r/a.txt` shows) an enumerated and counted
file can be filtered out again by `process_file` with no result and no
diagnostic; when every pattern is a `*suffix` pattern whose suffix
contains no path separator, the two gates agree on every path — a
sufficient condition, though (per the counterexample) not a necessary
one. -/
theorem c10_amended_gate_mismatch :
    (admitsEnum [aStarTxt] (str "/r/a.txt") = true ∧
      str "/r/a.txt" ∈ admitted [aStarTxt] [str "/r/a.txt"] ∧
      procGateExt [aStarTxt] (str "/r/a.txt") = false ∧
      processFile kwSet oracleSmall cfgNone [aStarTxt] 10 (str "/r/a.txt") =
        ([], [])) ∧
    (∀ (exts : List Pattern) (path : Str), exts.all isStarSuffixNoSep = true →
      admitsEnum exts path = procGateExt exts path) := by
  constructor
  · exact ⟨by decide, by decide, by decide,
      processFile_no_pattern kwSet oracleSmall cfgNone [aStarTxt] 10
        (str "/r/a.txt") 0 rfl (by norm_num) (by decide)⟩
  · intro exts path hall
    unfold admitsEnum procGateExt
    exact any_congr_mem
      (fun pt hpt => starSuffix_gate_eq (List.all_eq_true.1 hall pt hpt) path)

/-- Witness for C10's amended claim. -/
theorem c10_amended_gate_mismatch_witness :
    ([starPat ".txt"] : List Pattern).all isStarSuffixNoSep = true ∧
    admitsEnum [starPat ".txt"] (str "/r/a.txt") =
      procGateExt [starPat ".txt"] (str "/r/a.txt") :=
  ⟨by decide,
    c10_amended_gate_mismatch.2 [starPat ".txt"] (str "/r/a.txt") (by decide)⟩

end Poisk
